import Mathlib

/-!
Verification of the KnowledgeCircuitVis demo (`demo.py`).

We shallowly embed the pure core of the program: the `.gv` edge parser
(`gv_to_edges`), the node classification helpers (`get_layer`,
`get_attention_head`) and the layout engine (`create_elements`).

Modelling conventions:
* Python floats are modelled as exact rationals (`ℚ`); the literals
  `0.7`, `0.05`, `0.85`, `0.8` become `7/10`, `1/20`, `17/20`, `4/5`.
* Python `int` is `Int`.
* Operations that can raise (`int(...)` conversion errors, `min`/`max`
  of an empty sequence, division by zero) are modelled with `Option`:
  `none` means the Python code raises.
* Strings are manipulated through their character lists so that every
  definition is structurally recursive and kernel-evaluable.
-/

namespace KCVis

/-! ### Python string primitives -/

/-- Python `s.startswith(p)`. -/
def pyStartsWith (s p : String) : Bool := p.data.isPrefixOf s.data

/-- Whether `sub` occurs as a contiguous run inside `l`. -/
def listInfix (sub : List Char) : List Char → Bool
  | [] => sub.isEmpty
  | c :: rest => sub.isPrefixOf (c :: rest) || listInfix sub rest

/-- Python `sub in s` (substring containment). -/
def pyIn (sub s : String) : Bool := listInfix sub.data s.data

/-- Python single-character-separator `str.split`: splits at every
occurrence of `sep`, keeping empty pieces (`"a--b" → ["a","","b"]`,
`"" → [""]`). -/
def splitOnChar (sep : Char) : List Char → List (List Char)
  | [] => [[]]
  | c :: rest =>
    if c = sep then [] :: splitOnChar sep rest
    else
      match splitOnChar sep rest with
      | l :: ls => (c :: l) :: ls
      | [] => [[c]]

/-! ### Python `int(str)`

`int(s)` strips surrounding whitespace, accepts one optional sign, then
a nonempty run of decimal digits in which single underscores may appear
between digits.  (CPython additionally accepts non-ASCII decimal digits
and some non-ASCII whitespace; the identifiers of this program are
ASCII, so the model covers the ASCII alphabet.)  A failed conversion
raises `ValueError`, modelled as `none`. -/

def isDigitChar (c : Char) : Bool := '0' ≤ c && c ≤ '9'

def digitVal (c : Char) : Nat := c.toNat - '0'.toNat

/-- ASCII whitespace stripped by `int(str)`. -/
def isPyWs (c : Char) : Bool :=
  c = ' ' || c = '\t' || c = '\n' || c = '\r' || c = '\x0b' || c = '\x0c'

def digitsLoop (acc : Nat) : List Char → Option Nat
  | [] => some acc
  | '_' :: c :: rest =>
    if isDigitChar c then digitsLoop (acc * 10 + digitVal c) rest else none
  | c :: rest =>
    if isDigitChar c then digitsLoop (acc * 10 + digitVal c) rest else none

def parseDigits : List Char → Option Nat
  | [] => none
  | c :: rest => if isDigitChar c then digitsLoop (digitVal c) rest else none

def pyStrip (l : List Char) : List Char :=
  ((l.dropWhile isPyWs).reverse.dropWhile isPyWs).reverse

/-- Python `int(s)` (see section comment). -/
def pyIntParse (l : List Char) : Option Int :=
  match pyStrip l with
  | '+' :: rest => (parseDigits rest).map (fun n => (n : Int))
  | '-' :: rest => (parseDigits rest).map (fun n => -(n : Int))
  | l' => (parseDigits l').map (fun n => (n : Int))

/-! ### Node classification (`get_layer`, `get_attention_head`) -/

/-- Layer of a node (`demo.py` lines 62-71).  `m...` nodes parse the
digits between `m` and the first `-`; `a...` nodes parse the digits
between `a` and the first `.`; everything else gets the sentinel 100.
`int` conversion failures propagate as `none` (`ValueError`). -/
def get_layer (node : String) : Option Int :=
  if pyStartsWith node "m" then
    pyIntParse ((splitOnChar '-' (node.data.drop 1)).headD [])
  else if pyStartsWith node "a" then
    pyIntParse ((splitOnChar '.' (node.data.drop 1)).headD [])
  else some 100

/-- Attention-head index (`demo.py` lines 73-79).  For `a...` nodes the
text after the last `.` of the whole identifier is converted with
`int`; every other node gets `-1`. -/
def get_attention_head (node : String) : Option Int :=
  if pyStartsWith node "a" then
    pyIntParse ((splitOnChar '.' node.data).getLastD [])
  else some (-1)

/-! ### The `.gv` edge parser (`gv_to_edges`)

`demo.py` lines 40-60.  Per line, `re.search` is run with the pattern
`\"<(.+?)>\" -> \"<(.+?)>\"`: the literal `"<`, a lazy nonempty group,
the literal `>" -> "<`, a second lazy nonempty group, and the literal
`>"`.  `.` does not match `'\n'`.  We model the search engine exactly:
start positions are tried left to right; at a given start the first
group takes the shortest extent whose following literal is present and
whose second group can close, and the second group takes the shortest
extent followed by the closing literal. -/

/-- The literal between the two capture groups: `>" -> "<`. -/
def lit1 : List Char := ['>', '"', ' ', '-', '>', ' ', '"', '<']

/-- The closing literal after the second capture group: `>"`. -/
def lit2 : List Char := ['>', '"']

/-- Lazy match of `(.+?)` followed by the literal `d`: returns the
shortest nonempty newline-free prefix `a` of `l` such that `d` follows
it.  `none` when no such split exists (the regex engine then
backtracks further out). -/
def findDelim (d : List Char) : List Char → Option (List Char)
  | [] => none
  | c :: rest =>
    if c = '\n' then none
    else if d.isPrefixOf rest then some [c]
    else (findDelim d rest).map (fun a => c :: a)

/-- Lazy match of `(.+?)>\" -> \"<(.+?)>\"` against `l`: the first
group takes the shortest extent for which the rest of the pattern can
still succeed (extending on failure of the second group, as the
backtracking engine does). -/
def grp1 : List Char → Option (List Char × List Char)
  | [] => none
  | c :: rest =>
    if c = '\n' then none
    else if lit1.isPrefixOf rest then
      match findDelim lit2 (rest.drop lit1.length) with
      | some b => some ([c], b)
      | none => (grp1 rest).map (fun p => (c :: p.1, p.2))
    else (grp1 rest).map (fun p => (c :: p.1, p.2))

/-- The `re.search` of the edge pattern: try each start position left to
right; a start must carry the literal `"<` and then `grp1`. -/
def searchFrom : List Char → Option (List Char × List Char)
  | [] => none
  | c :: rest =>
    if c = '"' then
      match rest with
      | [] => none
      | c2 :: rest2 =>
        if c2 = '<' then
          match grp1 rest2 with
          | some p => some p
          | none => searchFrom rest
        else searchFrom rest
    else searchFrom rest

/-- Per-line match on a character list: the captured
`(source, target)` pair, if any. -/
def lineEdge (l : List Char) : Option (String × String) :=
  (searchFrom l).map (fun p => (⟨p.1⟩, ⟨p.2⟩))

/-- Per-line match: the captured `(source, target)` pair, if any. -/
def searchLine (line : String) : Option (String × String) :=
  lineEdge line.data

/-- The accumulation loop over lines (`demo.py` lines 55-58): append a
pair for every matching line, in order; skip the rest). -/
def gvEdgesOfLines : List String → List (String × String)
  | [] => []
  | line :: rest =>
    match searchLine line with
    | some e => e :: gvEdgesOfLines rest
    | none => gvEdgesOfLines rest

/-! #### The two input branches of `gv_to_edges`

File-path branch (lines 47-50): `open(path, 'r')` uses text mode with
universal newlines, translating `"\r\n"` and lone `"\r"` to `"\n"`,
and `readlines()` splits after every `'\n'`, keeping the terminator.
Upload branch (lines 51-53): the buffer's UTF-8 bytes are decoded back
to the text and split on `'\n'` (terminators dropped, a trailing
empty piece kept). -/

mutual

/-- Universal-newline translation performed by text-mode reading:
`"\r\n"` and lone `"\r"` both become `"\n"`. -/
def univNL : List Char → List Char
  | [] => []
  | c :: rest => if c = '\r' then '\n' :: univNLAfterCR rest else c :: univNL rest

/-- Continuation after a consumed `'\r'`: a following `'\n'` is folded
into the translated newline. -/
def univNLAfterCR : List Char → List Char
  | [] => []
  | c :: rest =>
    if c = '\n' then univNL rest
    else if c = '\r' then '\n' :: univNLAfterCR rest
    else c :: univNL rest

end

/-- Python `readlines()`: split after every `'\n'`, keeping it; no empty
trailing line. -/
def fileLines : List Char → List (List Char)
  | [] => []
  | c :: rest =>
    if c = '\n' then ['\n'] :: fileLines rest
    else
      match fileLines rest with
      | [] => [[c]]
      | l :: ls => (c :: l) :: ls

/-- Python `text.split('\n')`. -/
def bufferLines : List Char → List (List Char)
  | [] => [[]]
  | c :: rest =>
    if c = '\n' then [] :: bufferLines rest
    else
      match bufferLines rest with
      | [] => [[c]]
      | l :: ls => (c :: l) :: ls

/-- The function `gv_to_edges` on a file path whose file holds `text`. -/
def gv_to_edges_path (text : String) : List (String × String) :=
  gvEdgesOfLines ((fileLines (univNL text.data)).map (fun l => (⟨l⟩ : String)))

/-- The function `gv_to_edges` on an upload buffer whose bytes decode to `text`. -/
def gv_to_edges_upload (text : String) : List (String × String) :=
  gvEdgesOfLines ((bufferLines text.data).map (fun l => (⟨l⟩ : String)))

/-! ### The layout engine (`create_elements`, `demo.py` lines 81-160)

Output elements.  The per-type style dictionaries (`node_types`,
lines 162-169) and the fixed edge style (lines 151-157) are constant
data attached to the emitted dictionaries; they carry no logic and are
determined by the `type` / constructor below, so they are not
duplicated in the model. -/

inductive Element where
  | node (id : String) (nodeType : String) (x y : ℚ)
  | edge (id : String) (source target : String)
deriving DecidableEq, Repr

/-- The `id` field of an element. -/
def elemId : Element → String
  | .node i _ _ _ => i
  | .edge i _ _ => i

/-- The `x` coordinate of a node element (0 for edges). -/
def elemX : Element → ℚ
  | .node _ _ x _ => x
  | .edge _ _ _ => 0

/-- The `y` coordinate of a node element (0 for edges). -/
def elemY : Element → ℚ
  | .node _ _ _ y => y
  | .edge _ _ _ => 0

/-- The deduplicated node set (`demo.py` lines 85-88), in first-insertion
order.  (CPython iterates a `set` in an implementation-defined order;
only the `sorted` tie-breaking below can observe it, and no theorem in
this file depends on tie order.) -/
def nodesOf (edges : List (String × String)) : List String :=
  edges.foldl
    (fun acc e =>
      let acc1 := if e.1 ∈ acc then acc else acc ++ [e.1]
      if e.2 ∈ acc1 then acc1 else acc1 ++ [e.2])
    []

/-- The sort key of line 90:
`(get_layer(x), get_attention_head(x) if x.startswith('a') else -1)`.
Either component may raise. -/
def sortKey (x : String) : Option (Int × Int) :=
  match get_layer x with
  | none => none
  | some l =>
    match (if pyStartsWith x "a" then get_attention_head x else some (-1)) with
    | none => none
    | some h => some (l, h)

/-- Every node paired with its sort key; `none` if any key raises. -/
def keyedNodesOf (edges : List (String × String)) :
    Option (List (String × Int × Int)) :=
  (nodesOf edges).mapM (fun n => (sortKey n).map (fun k => (n, k)))

/-- Descending lexicographic comparison used by
`sorted(..., reverse=True)`: `keyGE p q` iff `p` sorts no later than
`q`. -/
def keyGE (p q : Int × Int) : Bool :=
  q.1 < p.1 || (p.1 = q.1 && q.2 ≤ p.2)

/-- Stable insertion into a descending-sorted list: the new element
goes after every earlier element that is `keyGE` it (CPython's sort is
stable; with `reverse=True` equal keys keep their original order). -/
def insSorted (x : String × Int × Int) :
    List (String × Int × Int) → List (String × Int × Int)
  | [] => [x]
  | y :: ys => if keyGE y.2 x.2 then y :: insSorted x ys else x :: y :: ys

/-- Python `sorted(nodes, key=..., reverse=True)` (line 90), stable. -/
def sortDesc (l : List (String × Int × Int)) : List (String × Int × Int) :=
  l.foldl (fun acc x => insSorted x acc) []

/-- Python `min` over a list of ints; raises (`none`) on empty. -/
def pyMin : List Int → Option Int
  | [] => none
  | x :: xs => some (xs.foldl min x)

/-- Python `max` over a list of ints; raises (`none`) on empty. -/
def pyMax : List Int → Option Int
  | [] => none
  | x :: xs => some (xs.foldl max x)

/-- The filter of lines 92-93: `get_layer(node) != float('-inf')`.
A Python `int` never equals `float('-inf')`, so the test is always
true and nothing is excluded. -/
def pyNeqNegInf (_l : Int) : Bool := true

/-- The layer multiset the `min`/`max` generators of lines 92-93 range
over (one `get_layer` value per node of the set). -/
def layersOf (edges : List (String × String)) : Option (List Int) :=
  (keyedNodesOf edges).map (fun keyed => keyed.map (fun p => p.2.1))

/-- Line 92: `min_layer`. -/
def minLayerOf (edges : List (String × String)) : Option Int :=
  (layersOf edges).bind (fun ls => pyMin (ls.filter pyNeqNegInf))

/-- Line 93: `max_layer`. -/
def maxLayerOf (edges : List (String × String)) : Option Int :=
  (layersOf edges).bind (fun ls => pyMax (ls.filter pyNeqNegInf))

/-- Lines 95-102: `layer_counts` as a function of the layer.  The
Python list is indexed by `layer - min_layer` (always in range because
`min_layer ≤ layer ≤ max_layer`); only non-sentinel layers are ever
incremented, so the slot of layer 100 stays 0. -/
def countsOf (keyed : List (String × Int × Int)) (l : Int) : Nat :=
  if l = 100 then 0 else (keyed.filter (fun p => p.2.1 = l)).length

/-- Lines 96-102: `layer_heights` — 1 for every layer holding at least
one non-sentinel node, else 0 (`max(·, 1)` starting from 0). -/
def heightsOf (keyed : List (String × Int × Int)) (l : Int) : Nat :=
  if countsOf keyed l = 0 then 0 else 1

/-- Line 104: `total_layers = sum(layer_heights)` over the list of
length `max_layer - min_layer + 1`. -/
def totalOf (keyed : List (String × Int × Int)) (minL maxL : Int) : Nat :=
  ((List.range (maxL + 1 - minL).toNat).map
    (fun i : Nat => heightsOf keyed (minL + (i : Int)))).sum

/-- The static data of one layout pass: everything computed before the
placement loop of line 111. -/
structure Ctx where
  minL : Int
  counts : Int → Nat
  heights : Int → Nat
  total : Nat
  lh : ℚ
  sorted : List (String × Int × Int)
deriving Inhabited

/-- Line 122: `sum(layer_heights[:layer - min_layer])`. -/
def heightsBefore (minL : Int) (heights : Int → Nat) (layer : Int) : Nat :=
  ((List.range (layer - minL).toNat).map
    (fun i : Nat => heights (minL + (i : Int)))).sum

/-- Lines 126-133: node type from the identifier. -/
def nodeTypeOf (node : String) : String :=
  if pyStartsWith node "m" then "MLP"
  else if pyStartsWith node "a" then "Attention"
  else if node = "resid_post" then "Output"
  else "default"

/-- The main `y` of lines 115 and 122, before the `'H'` adjustment. -/
def baseY (ctx : Ctx) (layer : Int) : ℚ :=
  if layer = 100 then 20
  else ((ctx.total : ℚ) - (heightsBefore ctx.minL ctx.heights layer : ℚ) - 1/2) * ctx.lh

/-- One iteration of the loop body (lines 112-144) for a node whose
attention counter state is `ac`: position, type, and the `'H'`
quarter-unit downshift of lines 143-144 (`y -= layer_height / 4`). -/
def emitNode (W : ℚ) (ctx : Ctx) (ac : Int → Nat) (node : String)
    (layer : Int) : Element :=
  let x : ℚ :=
    if layer = 100 then W * (7/10)
    else if pyStartsWith node "m" then W * (1/20)
    else W * (17/20) - ((ac layer + 1 : Nat) : ℚ) * (W * (4/5)) /
      ((ctx.counts layer + 1 : Nat) : ℚ)
  let y := baseY ctx layer
  let y' := if pyIn "H" node then y - ctx.lh / 4 else y
  Element.node node (nodeTypeOf node) x y'

/-- Does this loop iteration bump the per-layer attention counter
(line 120)?  Exactly the nodes that reach the attention arm: layer not
100 and not an `m…` node. -/
def bumps (node : String) (layer : Int) : Bool :=
  !(layer = 100 : Bool) && !pyStartsWith node "m"

def bump (ac : Int → Nat) (l : Int) : Int → Nat :=
  fun k => if k = l then ac l + 1 else ac k

/-- The placement loop of lines 111-144 over the sorted nodes, with the
running `attention_counts` state. -/
def placeNodes (W : ℚ) (ctx : Ctx) (ac : Int → Nat) :
    List (String × Int) → List Element
  | [] => []
  | (node, layer) :: rest =>
    emitNode W ctx ac node layer ::
      placeNodes W ctx (if bumps node layer then bump ac layer else ac) rest

/-- Lines 146-158: one edge element per input edge, id
`f'{source}-{target}'`, appended after all node elements. -/
def edgeElems (edges : List (String × String)) : List Element :=
  edges.map (fun e => Element.edge (e.1 ++ "-" ++ e.2) e.1 e.2)

/-- The pre-loop pipeline: keys (can raise), `min`/`max` (raise on an
empty node set), `total_layers` and `layer_height = graph_height /
total_layers` (raises on zero). -/
def ctxOf (edges : List (String × String)) (H : ℚ) : Option Ctx :=
  match keyedNodesOf edges, minLayerOf edges, maxLayerOf edges with
  | some keyed, some minL, some maxL =>
    let sorted := sortDesc keyed
    let total := totalOf sorted minL maxL
    if total = 0 then none
    else some
      { minL := minL
        counts := countsOf sorted
        heights := heightsOf sorted
        total := total
        lh := H / (total : ℚ)
        sorted := sorted }
  | _, _, _ => none

/-- The function `create_elements(edges, graph_width, graph_height)`
(`demo.py` lines 81-160). -/
def create_elements (edges : List (String × String)) (W H : ℚ) :
    Option (List Element) :=
  match ctxOf edges H with
  | none => none
  | some ctx =>
    some (placeNodes W ctx (fun _ => 0)
            (ctx.sorted.map (fun p => (p.1, p.2.1)))
          ++ edgeElems edges)

/-- Number of entries of `ps` that take the attention arm (and hence
bump the per-layer counter) at layer `k` — the loop invariant value of
`attention_counts[k - min_layer]`. -/
def countAttn (ps : List (String × Int)) (k : Int) : Nat :=
  (ps.filter (fun p => bumps p.1 p.2 && decide (p.2 = k))).length

/-- The layer height `graph_height / total_layers` of a successful
layout pass. -/
def layerHeightOf (edges : List (String × String)) (H : ℚ) : Option ℚ :=
  (ctxOf edges H).map Ctx.lh

/-- The main-`y` (lines 115/122) a node with identifier `id` receives
in a successful layout pass, before the `'H'` adjustment. -/
def baseYOf (edges : List (String × String)) (H : ℚ) (id : String) :
    Option ℚ :=
  match ctxOf edges H, get_layer id with
  | some ctx, some layer => some (baseY ctx layer)
  | _, _ => none

/-- Claim-side definition, following the spec's words for C2: the
maximum over the *non-sentinel* layers only (layer 100 excluded). -/
def specMaxFiniteLayer (edges : List (String × String)) : Option Int :=
  (layersOf edges).bind (fun ls => pyMax (ls.filter (fun l => decide (l ≠ 100))))

/-- Every carriage return is immediately followed by a line feed. -/
def crOk : List Char → Bool
  | [] => true
  | c :: rest =>
    if c = '\r' then
      match rest with
      | [] => false
      | c2 :: rest2 => if c2 = '\n' then crOk rest2 else false
    else crOk rest

/-- Claim-side definition for C4: the spec's pattern
`"<A>" -> "<B>"` as a string. -/
def patString (A B : String) : String :=
  "\"<" ++ A ++ ">\" -> \"<" ++ B ++ ">\""

/-- Claim-side definition for C4: the line contains the pattern
`"<A>" -> "<B>"` for some nonempty newline-free `A`, `B` (the lazy
groups `(.+?)` match any characters except `'\n'`). -/
def containsPat (line : String) : Prop :=
  ∃ pre A B post : String,
    line = pre ++ patString A B ++ post ∧ A ≠ "" ∧ B ≠ "" ∧
      ('\n' ∉ A.data) ∧ ('\n' ∉ B.data)

/-- Unfolding lemma for `create_elements` once the discrete pipeline
stages (which never involve `ℚ`) are known. -/
theorem create_elements_eval (edges : List (String × String)) (W H : ℚ)
    (keyed sorted : List (String × Int × Int)) (minL maxL : Int) (total : Nat)
    (hK : keyedNodesOf edges = some keyed)
    (hMin : minLayerOf edges = some minL)
    (hMax : maxLayerOf edges = some maxL)
    (hS : sortDesc keyed = sorted)
    (hT : totalOf sorted minL maxL = total)
    (hT0 : total ≠ 0) :
    create_elements edges W H =
      some (placeNodes W
        { minL := minL, counts := countsOf sorted, heights := heightsOf sorted,
          total := total, lh := H / (total : ℚ), sorted := sorted }
        (fun _ => 0) (sorted.map (fun p => (p.1, p.2.1))) ++ edgeElems edges) := by
  simp only [create_elements, ctxOf, hK, hMin, hMax, hS, hT, if_neg hT0]

/-! ### Parser lemmas -/

theorem isPrefixOf_append_one (x : Char) :
    ∀ (d l : List Char), x ∉ d → d.isPrefixOf (l ++ [x]) = d.isPrefixOf l
  | [], l, _ => by simp [List.isPrefixOf]
  | a :: as, [], hx => by
    have ha : (a == x) = false :=
      beq_eq_false_iff_ne.mpr (fun h => hx (h ▸ List.mem_cons_self a as))
    simp [List.isPrefixOf, ha]
  | a :: as, c :: l, hx => by
    simp only [List.cons_append, List.isPrefixOf, List.append_eq]
    rw [isPrefixOf_append_one x as l (fun h => hx (List.mem_cons_of_mem a h))]

theorem findDelim_append (d : List Char) (x : Char) (hd : d ≠ []) (hx : x ∉ d) :
    ∀ l : List Char, findDelim d (l ++ [x]) = findDelim d l
  | [] => by
    have hp : d.isPrefixOf [] = false := by
      cases d with
      | nil => exact absurd rfl hd
      | cons a as => rfl
    simp [findDelim, hp]
  | c :: l => by
    simp only [List.cons_append, findDelim, List.append_eq]
    by_cases hc : c = '\n'
    · simp [hc]
    · rw [isPrefixOf_append_one x d l hx, findDelim_append d x hd hx l]

theorem grp1_append (x : Char) (h1 : x ∉ lit1) (h2 : x ∉ lit2) :
    ∀ l : List Char, grp1 (l ++ [x]) = grp1 l
  | [] => by
    by_cases hx : x = '\n' <;>
      simp [grp1, hx, show lit1.isPrefixOf [] = false from by decide]
  | c :: l => by
    simp only [List.cons_append, grp1, List.append_eq]
    by_cases hc : c = '\n'
    · simp [hc]
    · rw [isPrefixOf_append_one x lit1 l h1]
      by_cases hp : lit1.isPrefixOf l
      · have hlen : lit1.length ≤ l.length :=
          (( List.isPrefixOf_iff_prefix).1 hp).length_le
        rw [if_neg hc, if_neg hc, if_pos hp, if_pos hp,
          List.drop_append_of_le_length hlen,
          findDelim_append lit2 x (by decide) h2]
        cases findDelim lit2 (l.drop lit1.length) with
        | none => rw [grp1_append x h1 h2 l]
        | some b => rfl
      · rw [if_neg hc, if_neg hc, if_neg hp, if_neg hp, grp1_append x h1 h2 l]

theorem searchFrom_append (x : Char) (h1 : x ∉ lit1) (h2 : x ∉ lit2)
    (hq : x ≠ '"') (hl : x ≠ '<') :
    ∀ l : List Char, searchFrom (l ++ [x]) = searchFrom l
  | [] => by simp [searchFrom, hq]
  | c :: l => by
    simp only [List.cons_append, searchFrom, List.append_eq]
    by_cases hc : c = '"'
    · rw [if_pos hc, if_pos hc]
      cases l with
      | nil =>
        simp only [List.append_eq, List.nil_append]
        rw [if_neg hl]
        simp [searchFrom, hq]
      | cons c2 l2 =>
        simp only [List.append_eq, List.cons_append]
        by_cases hc2 : c2 = '<'
        · rw [if_pos hc2, if_pos hc2, grp1_append x h1 h2 l2]
          cases grp1 l2 with
          | none =>
            have := searchFrom_append x h1 h2 hq hl (c2 :: l2)
            simpa using this
          | some p => rfl
        · rw [if_neg hc2, if_neg hc2]
          have := searchFrom_append x h1 h2 hq hl (c2 :: l2)
          simpa using this
    · rw [if_neg hc, if_neg hc, searchFrom_append x h1 h2 hq hl l]

theorem findDelim_sound (d : List Char) :
    ∀ l a, findDelim d l = some a →
      ∃ r, l = a ++ d ++ r ∧ a ≠ [] ∧ '\n' ∉ a
  | [], a => by simp [findDelim]
  | c :: l, a => by
    simp only [findDelim]
    by_cases hc : c = '\n'
    · simp [hc]
    · rw [if_neg hc]
      by_cases hp : d.isPrefixOf l
      · rw [if_pos hp]
        intro h
        obtain ⟨t, rfl⟩ := ( List.isPrefixOf_iff_prefix).1 hp
        refine ⟨t, ?_, ?_, ?_⟩
        · rw [← Option.some_inj.1 h]; simp
        · rw [← Option.some_inj.1 h]; simp
        · rw [← Option.some_inj.1 h]; simp [hc, eq_comm]
      · rw [if_neg hp]
        cases hfd : findDelim d l with
        | none => simp
        | some a' =>
          simp only [Option.map_some', Option.some_inj]
          intro h
          obtain ⟨r, hl, hne, hnl⟩ := findDelim_sound d l a' hfd
          refine ⟨r, ?_, by simp [← h], ?_⟩
          · rw [← h, hl]; simp
          · rw [← h]; simp [hc, hnl, eq_comm]

theorem findDelim_complete (d : List Char) :
    ∀ (a r : List Char), a ≠ [] → '\n' ∉ a →
      (findDelim d (a ++ d ++ r)).isSome
  | [], _, ha, _ => absurd rfl ha
  | y :: a', r, _, hnl => by
    have hy : y ≠ '\n' := fun h => hnl (h ▸ List.mem_cons_self y a')
    simp only [List.cons_append, List.append_eq, findDelim, if_neg hy]
    by_cases hp : d.isPrefixOf (a' ++ d ++ r)
    · rw [if_pos hp]; rfl
    · rw [if_neg hp]
      cases a' with
      | nil =>
        exact absurd (( List.isPrefixOf_iff_prefix).2
          (by simp)) hp
      | cons z a'' =>
        have := findDelim_complete d (z :: a'') r (by simp)
          (fun h => hnl (List.mem_cons_of_mem y h))
        rw [Option.isSome_map']
        exact this

theorem grp1_sound :
    ∀ l a b, grp1 l = some (a, b) →
      ∃ r, l = a ++ lit1 ++ b ++ lit2 ++ r ∧
        a ≠ [] ∧ b ≠ [] ∧ '\n' ∉ a ∧ '\n' ∉ b
  | [], a, b => by simp [grp1]
  | c :: l, a, b => by
    simp only [grp1]
    by_cases hc : c = '\n'
    · simp [hc]
    · rw [if_neg hc]
      by_cases hp : lit1.isPrefixOf l
      · rw [if_pos hp]
        obtain ⟨t, rfl⟩ := ( List.isPrefixOf_iff_prefix).1 hp
        rw [List.drop_left]
        cases hfd : findDelim lit2 t with
        | some b' =>
          intro h
          obtain ⟨ha, hb⟩ := Prod.mk.injEq .. ▸ Option.some_inj.1 h
          obtain ⟨r, ht, hbne, hbnl⟩ := findDelim_sound lit2 t b' hfd
          subst ht
          refine ⟨r, ?_, by simp [← ha], by simp [← hb, hbne], ?_, ?_⟩
          · rw [← ha, ← hb]; simp
          · rw [← ha]; simp [hc, eq_comm]
          · rw [← hb]; exact hbnl
        | none =>
          cases hg : grp1 (lit1 ++ t) with
          | none => simp
          | some p =>
            simp only [Option.map_some', Option.some_inj]
            intro h
            obtain ⟨r, hl, hane, hbne, hanl, hbnl⟩ :=
              grp1_sound (lit1 ++ t) p.1 p.2 hg
            obtain ⟨ha, hb⟩ := Prod.mk.injEq .. ▸ h
            refine ⟨r, ?_, by simp [← ha], by rw [← hb]; exact hbne, ?_, ?_⟩
            · rw [← ha, ← hb, hl]; simp
            · rw [← ha]; simp [hc, hanl, eq_comm]
            · rw [← hb]; exact hbnl
      · rw [if_neg hp]
        cases hg : grp1 l with
        | none => simp
        | some p =>
          simp only [Option.map_some', Option.some_inj]
          intro h
          obtain ⟨r, hl, hane, hbne, hanl, hbnl⟩ := grp1_sound l p.1 p.2 hg
          obtain ⟨ha, hb⟩ := Prod.mk.injEq .. ▸ h
          refine ⟨r, ?_, by simp [← ha], by rw [← hb]; exact hbne, ?_, ?_⟩
          · rw [← ha, ← hb, hl]; simp
          · rw [← ha]; simp [hc, hanl, eq_comm]
          · rw [← hb]; exact hbnl

theorem grp1_complete :
    ∀ (a b r : List Char), a ≠ [] → b ≠ [] → '\n' ∉ a → '\n' ∉ b →
      (grp1 (a ++ lit1 ++ b ++ lit2 ++ r)).isSome
  | [], _, _, ha, _, _, _ => absurd rfl ha
  | y :: a', b, r, _, hb, hanl, hbnl => by
    have hy : y ≠ '\n' := fun h => hanl (h ▸ List.mem_cons_self y a')
    simp only [List.cons_append, List.append_eq, grp1, if_neg hy]
    by_cases hp : lit1.isPrefixOf (a' ++ lit1 ++ b ++ lit2 ++ r)
    · rw [if_pos hp]
      cases hfd : findDelim lit2 ((a' ++ lit1 ++ b ++ lit2 ++ r).drop
          lit1.length) with
      | some b' => rfl
      | none =>
        cases a' with
        | nil =>
          exfalso
          have : (findDelim lit2 (b ++ lit2 ++ r)).isSome :=
            findDelim_complete lit2 b r hb hbnl
          rw [show ([] ++ lit1 ++ b ++ lit2 ++ r : List Char) =
            lit1 ++ (b ++ lit2 ++ r) by simp, List.drop_left] at hfd
          rw [show b ++ lit2 ++ r = b ++ (lit2 ++ r) by simp] at this hfd
          rw [hfd] at this
          simp at this
        | cons z a'' =>
          have := grp1_complete (z :: a'') b r (by simp) hb
            (fun h => hanl (List.mem_cons_of_mem y h)) hbnl
          rw [Option.isSome_map']
          simpa using this
    · rw [if_neg hp]
      cases a' with
      | nil =>
        exact absurd (( List.isPrefixOf_iff_prefix).2
          (by simp)) hp
      | cons z a'' =>
        have := grp1_complete (z :: a'') b r (by simp) hb
          (fun h => hanl (List.mem_cons_of_mem y h)) hbnl
        rw [Option.isSome_map']
        simpa using this

theorem searchFrom_sound :
    ∀ l a b, searchFrom l = some (a, b) →
      ∃ pre r, l = pre ++ '"' :: '<' :: (a ++ lit1 ++ b ++ lit2 ++ r) ∧
        a ≠ [] ∧ b ≠ [] ∧ '\n' ∉ a ∧ '\n' ∉ b
  | [], a, b => by simp [searchFrom]
  | c :: l, a, b => by
    simp only [searchFrom]
    by_cases hc : c = '"'
    · rw [if_pos hc]
      cases l with
      | nil => simp
      | cons c2 l2 =>
        dsimp only
        by_cases hc2 : c2 = '<'
        · rw [if_pos hc2]
          cases hg : grp1 l2 with
          | some p =>
            intro h
            obtain rfl : p = (a, b) := Option.some_inj.1 h
            obtain ⟨r, hl2, hane, hbne, hanl, hbnl⟩ := grp1_sound l2 a b hg
            exact ⟨[], r, by rw [hc, hc2, hl2]; rfl, hane, hbne, hanl, hbnl⟩
          | none =>
            intro h
            obtain ⟨pre, r, hl, hane, hbne, hanl, hbnl⟩ :=
              searchFrom_sound (c2 :: l2) a b h
            exact ⟨c :: pre, r, by rw [hl]; rfl, hane, hbne, hanl, hbnl⟩
        · rw [if_neg hc2]
          intro h
          obtain ⟨pre, r, hl, hane, hbne, hanl, hbnl⟩ :=
            searchFrom_sound (c2 :: l2) a b h
          exact ⟨c :: pre, r, by rw [hl]; rfl, hane, hbne, hanl, hbnl⟩
    · rw [if_neg hc]
      intro h
      obtain ⟨pre, r, hl, hane, hbne, hanl, hbnl⟩ := searchFrom_sound l a b h
      exact ⟨c :: pre, r, by rw [hl]; rfl, hane, hbne, hanl, hbnl⟩

theorem searchFrom_complete :
    ∀ (pre a b r : List Char), a ≠ [] → b ≠ [] → '\n' ∉ a → '\n' ∉ b →
      (searchFrom (pre ++ '"' :: '<' :: (a ++ lit1 ++ b ++ lit2 ++ r))).isSome
  | [], a, b, r, ha, hb, hanl, hbnl => by
    simp only [List.nil_append, searchFrom, if_true]
    have hg := grp1_complete a b r ha hb hanl hbnl
    cases hgr : grp1 (a ++ lit1 ++ b ++ lit2 ++ r) with
    | none => rw [hgr] at hg; simp at hg
    | some p => rfl
  | p :: pre, a, b, r, ha, hb, hanl, hbnl => by
    have ih := searchFrom_complete pre a b r ha hb hanl hbnl
    simp only [List.cons_append, List.append_eq, searchFrom]
    by_cases hp : p = '"'
    · rw [if_pos hp]
      cases hpre : pre ++ '"' :: '<' :: (a ++ lit1 ++ b ++ lit2 ++ r) with
      | nil => exact absurd hpre (by cases pre <;> simp)
      | cons c2 l2 =>
        dsimp only
        rw [hpre] at ih
        by_cases hc2 : c2 = '<'
        · rw [if_pos hc2]
          cases hg : grp1 l2 with
          | some q => rfl
          | none => exact ih
        · rw [if_neg hc2]; exact ih
    · rw [if_neg hp]
      exact ih

/-! ### Lemmas on the two input branches (for C10) -/

theorem lineEdge_append_nl (l : List Char) :
    lineEdge (l ++ ['\n']) = lineEdge l := by
  unfold lineEdge
  rw [searchFrom_append '\n' (by decide) (by decide) (by decide) (by decide) l]

theorem lineEdge_append_cr (l : List Char) :
    lineEdge (l ++ ['\r']) = lineEdge l := by
  unfold lineEdge
  rw [searchFrom_append '\r' (by decide) (by decide) (by decide) (by decide) l]

theorem gvEdges_map_mk : ∀ ls : List (List Char),
    gvEdgesOfLines (ls.map (fun l => (⟨l⟩ : String))) = ls.filterMap lineEdge
  | [] => rfl
  | l :: ls => by
    have hsl : searchLine ⟨l⟩ = lineEdge l := rfl
    simp only [List.map_cons, gvEdgesOfLines, List.filterMap_cons, hsl]
    cases lineEdge l with
    | none => exact gvEdges_map_mk ls
    | some e => rw [gvEdges_map_mk ls]

theorem buffer_file_split :
    ∀ t : List Char, ∃ ls last,
      bufferLines t = ls ++ [last] ∧
      fileLines t = ls.map (fun l => l ++ ['\n']) ++
        (if last = [] then [] else [last])
  | [] => ⟨[], [], rfl, rfl⟩
  | c :: t => by
    obtain ⟨ls, last, hb, hf⟩ := buffer_file_split t
    by_cases hc : c = '\n'
    · refine ⟨[] :: ls, last, ?_, ?_⟩
      · simp only [bufferLines, if_pos hc, hb]; rfl
      · simp only [fileLines, if_pos hc, hf]; rfl
    · cases ls with
      | nil =>
        simp only [List.nil_append] at hb
        simp only [List.map_nil, List.nil_append] at hf
        refine ⟨[], c :: last, ?_, ?_⟩
        · simp only [bufferLines, if_neg hc, hb, List.nil_append]
        · by_cases hl : last = []
          · rw [if_pos hl] at hf
            simp only [fileLines, if_neg hc, hf, List.map_nil,
              List.nil_append, if_neg (List.cons_ne_nil c last)]
            rw [hl]
          · rw [if_neg hl] at hf
            simp only [fileLines, if_neg hc, hf, List.map_nil,
              List.nil_append, if_neg (List.cons_ne_nil c last)]
      | cons l0 ls1 =>
        refine ⟨(c :: l0) :: ls1, last, ?_, ?_⟩
        · simp only [bufferLines, if_neg hc, hb, List.cons_append]
        · simp only [List.map_cons, List.cons_append] at hf ⊢
          simp only [fileLines, if_neg hc, hf, List.cons_append]

theorem bufferLines_ne_nil : ∀ t : List Char, bufferLines t ≠ []
  | [] => by simp [bufferLines]
  | c :: t => by
    simp only [bufferLines]
    by_cases hc : c = '\n'
    · simp [hc]
    · rw [if_neg hc]
      cases h : bufferLines t with
      | nil => exact absurd h (bufferLines_ne_nil t)
      | cons l ls => simp

theorem crOk_buffer_univNL :
    ∀ t : List Char, crOk t = true →
      List.Forall₂ (fun a b => a = b ∨ a = b ++ ['\r'])
        (bufferLines t) (bufferLines (univNL t))
  | [], _ => by
    rw [show univNL [] = [] from rfl]
    exact List.Forall₂.cons (Or.inl rfl) List.Forall₂.nil
  | c :: t, h => by
    by_cases hc : c = '\r'
    · subst hc
      cases t with
      | nil => exact absurd h (by decide)
      | cons c2 t2 =>
        by_cases hc2 : c2 = '\n'
        · subst hc2
          have h' : crOk t2 = true := by
            rw [show crOk ('\r' :: '\n' :: t2) = crOk t2 from rfl] at h
            exact h
          rw [show bufferLines ('\r' :: '\n' :: t2) =
              ['\r'] :: bufferLines t2 from rfl,
            show univNL ('\r' :: '\n' :: t2) = '\n' :: univNL t2 from rfl,
            show ∀ x, bufferLines ('\n' :: x) = [] :: bufferLines x from
              fun x => rfl]
          exact List.Forall₂.cons (Or.inr rfl) (crOk_buffer_univNL t2 h')
        · exact absurd h (by simp [crOk, hc2])
    · have h' : crOk t = true := by
        unfold crOk at h
        rw [if_neg hc] at h
        exact h
      have ih := crOk_buffer_univNL t h'
      have hu : univNL (c :: t) = c :: univNL t := by
        rw [univNL.eq_2, if_neg hc]
      rw [hu]
      by_cases hn : c = '\n'
      · subst hn
        rw [show ∀ x, bufferLines ('\n' :: x) = [] :: bufferLines x from
          fun x => rfl]
        rw [show ∀ x, bufferLines ('\n' :: x) = [] :: bufferLines x from
          fun x => rfl]
        exact List.Forall₂.cons (Or.inl rfl) ih
      · cases hbt : bufferLines t with
        | nil => exact absurd hbt (bufferLines_ne_nil t)
        | cons a as =>
          cases hbu : bufferLines (univNL t) with
          | nil => exact absurd hbu (bufferLines_ne_nil (univNL t))
          | cons b bs =>
            rw [hbt, hbu] at ih
            cases ih with
            | cons hab htail =>
              rw [show bufferLines (c :: t) = (c :: a) :: as by
                  simp only [bufferLines, if_neg hn, hbt],
                show bufferLines (c :: univNL t) = (c :: b) :: bs by
                  simp only [bufferLines, if_neg hn, hbu]]
              refine List.Forall₂.cons ?_ htail
              cases hab with
              | inl hab => exact Or.inl (by rw [hab])
              | inr hab => exact Or.inr (by rw [hab]; rfl)

theorem filterMap_lineEdge_rel :
    ∀ {ls ls' : List (List Char)},
      List.Forall₂ (fun a b => a = b ∨ a = b ++ ['\r']) ls ls' →
      ls.filterMap lineEdge = ls'.filterMap lineEdge := by
  intro ls ls' h
  induction h with
  | nil => rfl
  | @cons a b as bs hab _ ih =>
    have hed : lineEdge a = lineEdge b := by
      cases hab with
      | inl hab => rw [hab]
      | inr hab => rw [hab, lineEdge_append_cr]
    simp only [List.filterMap_cons, hed, ih]

theorem file_buffer_eq (u : List Char) :
    (fileLines u).filterMap lineEdge = (bufferLines u).filterMap lineEdge := by
  obtain ⟨ls, last, hb, hf⟩ := buffer_file_split u
  rw [hb, hf, List.filterMap_append, List.filterMap_append]
  congr 1
  · rw [List.filterMap_map]
    have : lineEdge ∘ (fun l => l ++ ['\n']) = lineEdge :=
      funext lineEdge_append_nl
    rw [this]
  · by_cases hl : last = []
    · subst hl
      rw [if_pos rfl]
      simp [List.filterMap_cons, show lineEdge [] = none from rfl]
    · rw [if_neg hl]

theorem gv_path_eq_upload (text : String) (h : crOk text.data = true) :
    gv_to_edges_path text = gv_to_edges_upload text := by
  unfold gv_to_edges_path gv_to_edges_upload
  rw [gvEdges_map_mk, gvEdges_map_mk, file_buffer_eq]
  exact (filterMap_lineEdge_rel (crOk_buffer_univNL text.data h)).symm

/-! ### Characterisation of a matching line (for C4) -/

theorem patString_data (A B : String) :
    (patString A B).data =
      '"' :: '<' :: (A.data ++ lit1 ++ B.data ++ lit2) := by
  simp only [patString, String.data_append,
    show ("\"<" : String).data = ['"', '<'] from rfl,
    show (">\" -> \"<" : String).data = lit1 from rfl,
    show (">\"" : String).data = lit2 from rfl, lit1, lit2,
    List.append_assoc, List.cons_append, List.nil_append]

theorem searchLine_some_pat (line A B : String)
    (h : searchLine line = some (A, B)) :
    ∃ pre post : String, line = pre ++ patString A B ++ post ∧
      A ≠ "" ∧ B ≠ "" ∧ '\n' ∉ A.data ∧ '\n' ∉ B.data := by
  unfold searchLine lineEdge at h
  cases hs : searchFrom line.data with
  | none => rw [hs] at h; exact absurd h (by simp)
  | some p =>
    rw [hs] at h
    simp only [Option.map_some', Option.some_inj] at h
    rw [Prod.mk.injEq] at h
    obtain ⟨hA, hB⟩ := h
    obtain ⟨pre, r, hl, hane, hbne, hanl, hbnl⟩ :=
      searchFrom_sound line.data p.1 p.2 (by rw [hs])
    refine ⟨⟨pre⟩, ⟨r⟩, ?_, ?_, ?_, ?_, ?_⟩
    · apply String.ext
      rw [String.data_append, String.data_append, patString_data,
        show (⟨pre⟩ : String).data = pre from rfl,
        show (⟨r⟩ : String).data = r from rfl, ← hA, ← hB,
        show (⟨p.1⟩ : String).data = p.1 from rfl,
        show (⟨p.2⟩ : String).data = p.2 from rfl, hl]
      simp [List.append_assoc]
    · rw [← hA]
      intro hcon
      exact hane (by simpa using String.ext_iff.1 hcon)
    · rw [← hB]
      intro hcon
      exact hbne (by simpa using String.ext_iff.1 hcon)
    · rw [← hA]; exact hanl
    · rw [← hB]; exact hbnl

theorem searchLine_isSome_iff (line : String) :
    (searchLine line).isSome ↔ containsPat line := by
  constructor
  · intro h
    obtain ⟨⟨A, B⟩, hAB⟩ := Option.isSome_iff_exists.1 h
    obtain ⟨pre, post, hline, hA, hB, hAnl, hBnl⟩ :=
      searchLine_some_pat line A B hAB
    exact ⟨pre, A, B, post, hline, hA, hB, hAnl, hBnl⟩
  · rintro ⟨pre, A, B, post, hline, hA, hB, hAnl, hBnl⟩
    unfold searchLine lineEdge
    rw [Option.isSome_map']
    have hdata : line.data = pre.data ++ '"' :: '<' ::
        (A.data ++ lit1 ++ B.data ++ lit2 ++ post.data) := by
      rw [hline]
      rw [String.data_append, String.data_append, patString_data]
      simp [List.append_assoc]
    rw [hdata]
    exact searchFrom_complete pre.data A.data B.data post.data
      (fun hd => hA (String.ext (by rw [hd])))
      (fun hd => hB (String.ext (by rw [hd])))
      hAnl hBnl

/-! ### Layout-engine lemmas -/

theorem foldl_min_le_init : ∀ (xs : List Int) (a : Int), xs.foldl min a ≤ a
  | [], _ => le_refl _
  | x :: xs, a =>
    le_trans (foldl_min_le_init xs (min a x)) (min_le_left a x)

theorem foldl_min_le_mem :
    ∀ (xs : List Int) (a x : Int), x ∈ xs → xs.foldl min a ≤ x
  | [], _, _, hx => absurd hx (List.not_mem_nil _)
  | y :: xs, a, x, hx => by
    rcases List.mem_cons.1 hx with rfl | hx
    · exact le_trans (foldl_min_le_init xs (min a x)) (min_le_right a x)
    · exact foldl_min_le_mem xs (min a y) x hx

theorem foldl_min_mem : ∀ (xs : List Int) (a : Int), xs.foldl min a ∈ a :: xs
  | [], a => List.mem_cons_self a []
  | x :: xs, a => by
    rw [List.foldl_cons]
    have h := foldl_min_mem xs (min a x)
    rcases List.mem_cons.1 h with hm | hm
    · rw [hm]
      rcases min_choice a x with hc | hc <;> rw [hc]
      · exact List.mem_cons_self a _
      · exact List.mem_cons.2 (Or.inr (List.mem_cons_self x xs))
    · exact List.mem_cons.2 (Or.inr (List.mem_cons.2 (Or.inr hm)))

theorem foldl_max_ge_init : ∀ (xs : List Int) (a : Int), a ≤ xs.foldl max a
  | [], _ => le_refl _
  | x :: xs, a =>
    le_trans (le_max_left a x) (foldl_max_ge_init xs (max a x))

theorem foldl_max_ge_mem :
    ∀ (xs : List Int) (a x : Int), x ∈ xs → x ≤ xs.foldl max a
  | [], _, _, hx => absurd hx (List.not_mem_nil _)
  | y :: xs, a, x, hx => by
    rcases List.mem_cons.1 hx with rfl | hx
    · exact le_trans (le_max_right a x) (foldl_max_ge_init xs (max a x))
    · exact foldl_max_ge_mem xs (max a y) x hx

theorem pyMin_le (l : List Int) (m : Int) (h : pyMin l = some m) :
    ∀ x ∈ l, m ≤ x := by
  cases l with
  | nil => exact absurd h (by simp [pyMin])
  | cons y ys =>
    obtain rfl : ys.foldl min y = m := Option.some_inj.1 h
    intro x hx
    rcases List.mem_cons.1 hx with rfl | hx
    · exact foldl_min_le_init ys x
    · exact foldl_min_le_mem ys y x hx

theorem pyMax_ge (l : List Int) (m : Int) (h : pyMax l = some m) :
    ∀ x ∈ l, x ≤ m := by
  cases l with
  | nil => exact absurd h (by simp [pyMax])
  | cons y ys =>
    obtain rfl : ys.foldl max y = m := Option.some_inj.1 h
    intro x hx
    rcases List.mem_cons.1 hx with rfl | hx
    · exact foldl_max_ge_init ys x
    · exact foldl_max_ge_mem ys y x hx

theorem pyMin_mem (l : List Int) (m : Int) (h : pyMin l = some m) : m ∈ l := by
  cases l with
  | nil => exact absurd h (by simp [pyMin])
  | cons y ys =>
    obtain rfl : ys.foldl min y = m := Option.some_inj.1 h
    exact foldl_min_mem ys y

theorem foldl_max_mem : ∀ (xs : List Int) (a : Int), xs.foldl max a ∈ a :: xs
  | [], a => List.mem_cons_self a []
  | x :: xs, a => by
    rw [List.foldl_cons]
    have h := foldl_max_mem xs (max a x)
    rcases List.mem_cons.1 h with hm | hm
    · rw [hm]
      rcases max_choice a x with hc | hc <;> rw [hc]
      · exact List.mem_cons_self a _
      · exact List.mem_cons.2 (Or.inr (List.mem_cons_self x xs))
    · exact List.mem_cons.2 (Or.inr (List.mem_cons.2 (Or.inr hm)))

theorem pyMax_mem (l : List Int) (m : Int) (h : pyMax l = some m) : m ∈ l := by
  cases l with
  | nil => exact absurd h (by simp [pyMax])
  | cons y ys =>
    obtain rfl : ys.foldl max y = m := Option.some_inj.1 h
    exact foldl_max_mem ys y

theorem pyMin_isSome (l : List Int) (h : l ≠ []) : (pyMin l).isSome := by
  cases l with
  | nil => exact absurd rfl h
  | cons y ys => rfl

theorem pyMax_isSome (l : List Int) (h : l ≠ []) : (pyMax l).isSome := by
  cases l with
  | nil => exact absurd rfl h
  | cons y ys => rfl

theorem keyedNodes_map_fst :
    ∀ (l : List String) (ys : List (String × Int × Int)),
      l.mapM (fun n => (sortKey n).map (fun k => (n, k))) = some ys →
      ys.map Prod.fst = l ∧ ∀ p ∈ ys, sortKey p.1 = some p.2
  | [], ys => by
    intro h
    have h0 : (some [] : Option (List (String × Int × Int))) = some ys := h
    obtain rfl : ys = [] := (Option.some_inj.1 h0).symm
    exact ⟨rfl, by simp⟩
  | n :: l, ys => by
    intro h
    rw [List.mapM_cons] at h
    cases hk : sortKey n with
    | none => rw [hk] at h; exact absurd h (by simp)
    | some k =>
      rw [hk] at h
      cases hrest : l.mapM (fun n => (sortKey n).map (fun k => (n, k))) with
      | none => rw [hrest] at h; exact absurd h (by simp)
      | some ys' =>
        rw [hrest] at h
        obtain rfl : (n, k) :: ys' = ys := by simpa using h
        obtain ⟨h1, h2⟩ := keyedNodes_map_fst l ys' hrest
        refine ⟨by simp [h1], ?_⟩
        intro p hp
        rcases List.mem_cons.1 hp with rfl | hp
        · exact hk
        · exact h2 p hp

theorem mapM_sortKey_isSome :
    ∀ (l : List String), (∀ n ∈ l, (sortKey n).isSome) →
      (l.mapM (fun n => (sortKey n).map (fun k => (n, k)))).isSome
  | [], _ => rfl
  | n :: l, h => by
    rw [List.mapM_cons]
    obtain ⟨k, hk⟩ := Option.isSome_iff_exists.1 (h n (List.mem_cons_self n l))
    rw [hk]
    obtain ⟨ys, hys⟩ := Option.isSome_iff_exists.1
      (mapM_sortKey_isSome l (fun x hx => h x (List.mem_cons_of_mem n hx)))
    rw [hys]
    rfl

theorem insSorted_mem (x p : String × Int × Int) :
    ∀ l : List (String × Int × Int), p ∈ insSorted x l ↔ p = x ∨ p ∈ l
  | [] => by simp [insSorted]
  | y :: ys => by
    simp only [insSorted]
    by_cases hk : keyGE y.2 x.2
    · rw [if_pos hk]
      simp only [List.mem_cons, insSorted_mem x p ys]
      tauto
    · rw [if_neg hk]
      simp [List.mem_cons]

theorem sortDesc_mem (keyed : List (String × Int × Int))
    (p : String × Int × Int) : p ∈ sortDesc keyed ↔ p ∈ keyed := by
  suffices h : ∀ (l acc : List (String × Int × Int)),
      p ∈ l.foldl (fun acc x => insSorted x acc) acc ↔ p ∈ acc ∨ p ∈ l by
    rw [sortDesc, h keyed []]
    simp
  intro l
  induction l with
  | nil => simp
  | cons x xs ih =>
    intro acc
    rw [List.foldl_cons, ih (insSorted x acc), insSorted_mem]
    simp only [List.mem_cons]
    tauto

theorem sortDesc_length (keyed : List (String × Int × Int)) :
    (sortDesc keyed).length = keyed.length := by
  suffices h : ∀ (l acc : List (String × Int × Int)),
      (l.foldl (fun acc x => insSorted x acc) acc).length =
        acc.length + l.length by
    rw [sortDesc, h keyed []]
    simp
  have hins : ∀ (x : String × Int × Int) (l : List (String × Int × Int)),
      (insSorted x l).length = l.length + 1 := by
    intro x l
    induction l with
    | nil => rfl
    | cons y ys ih =>
      simp only [insSorted]
      by_cases hk : keyGE y.2 x.2
      · rw [if_pos hk]; simp [ih]
      · rw [if_neg hk]; simp
  intro l
  induction l with
  | nil => simp
  | cons x xs ih =>
    intro acc
    rw [List.foldl_cons, ih (insSorted x acc), hins]
    simp only [List.length_cons]
    omega

theorem heightsOf_le_totalOf (keyed : List (String × Int × Int))
    (minL maxL l : Int) (h1 : minL ≤ l) (h2 : l ≤ maxL) :
    heightsOf keyed l ≤ totalOf keyed minL maxL := by
  have hi : (l - minL).toNat < (maxL + 1 - minL).toNat := by omega
  have hval : minL + ((l - minL).toNat : Int) = l := by omega
  have hmem : heightsOf keyed l ∈
      (List.range (maxL + 1 - minL).toNat).map
        (fun i : Nat => heightsOf keyed (minL + (i : Int))) := by
    have hv : heightsOf keyed (minL + (((l - minL).toNat : Nat) : Int)) =
        heightsOf keyed l := by rw [hval]
    rw [← hv]
    exact List.mem_map_of_mem (fun i : Nat => heightsOf keyed (minL + (i : Int)))
      (List.mem_range.2 hi)
  exact List.single_le_sum (fun x _ => Nat.zero_le x) _ hmem

theorem sortKey_layer (n : String) (k : Int × Int) (h : sortKey n = some k) :
    get_layer n = some k.1 := by
  unfold sortKey at h
  cases hl : get_layer n with
  | none => rw [hl] at h; exact absurd h (by simp)
  | some l =>
    rw [hl] at h
    cases hh : (if pyStartsWith n "a" then get_attention_head n
        else some (-1)) with
    | none => rw [hh] at h; exact absurd h (by simp)
    | some hd =>
      rw [hh] at h
      obtain rfl : (l, hd) = k := Option.some_inj.1 h
      rfl

theorem countAttn_cons (p : String × Int) (ps : List (String × Int))
    (k : Int) :
    countAttn (p :: ps) k =
      (if bumps p.1 p.2 && decide (p.2 = k) then 1 else 0) + countAttn ps k := by
  simp only [countAttn, List.filter_cons]
  by_cases h : bumps p.1 p.2 && decide (p.2 = k)
  · rw [if_pos h, if_pos h]
    simp [Nat.add_comm]
  · rw [if_neg h, if_neg h]
    simp

theorem countAttn_append (l1 l2 : List (String × Int)) (k : Int) :
    countAttn (l1 ++ l2) k = countAttn l1 k + countAttn l2 k := by
  simp [countAttn, List.filter_append]

theorem countAttn_take_le (ps : List (String × Int)) (i j : Nat) (k : Int)
    (hij : i ≤ j) :
    countAttn (ps.take i) k ≤ countAttn (ps.take j) k := by
  have : ps.take j = ps.take i ++ (ps.drop i).take (j - i) := by
    rw [← List.take_add]
    congr 1
    omega
  rw [this, countAttn_append]
  exact Nat.le_add_right _ _

theorem countAttn_take_lt (ps : List (String × Int)) (i j : Nat) (k : Int)
    (n : String) (hij : i < j) (hget : ps.get? i = some (n, k))
    (hb : bumps n k = true) :
    countAttn (ps.take i) k < countAttn (ps.take j) k := by
  have hsucc : ps.take (i + 1) = ps.take i ++ [(n, k)] := by
    rw [List.take_succ, ← List.get?_eq_getElem?, hget]
    rfl
  have h1 : countAttn (ps.take (i + 1)) k = countAttn (ps.take i) k + 1 := by
    rw [hsucc, countAttn_append]
    simp [countAttn, List.filter_cons, hb]
  have h2 := countAttn_take_le ps (i + 1) j k hij
  omega

theorem placeNodes_length (W : ℚ) (ctx : Ctx) :
    ∀ (ps : List (String × Int)) (ac : Int → Nat),
      (placeNodes W ctx ac ps).length = ps.length
  | [], _ => rfl
  | p :: ps, ac => by
    simp only [placeNodes, List.length_cons]
    rw [placeNodes_length W ctx ps]

theorem emitNode_congr (W : ℚ) (ctx : Ctx) (ac ac' : Int → Nat)
    (n : String) (l : Int) (h : ac l = ac' l) :
    emitNode W ctx ac n l = emitNode W ctx ac' n l := by
  unfold emitNode
  rw [h]

theorem placeNodes_get (W : ℚ) (ctx : Ctx) :
    ∀ (ps : List (String × Int)) (ac : Int → Nat) (i : Nat) (n : String)
      (l : Int), ps.get? i = some (n, l) →
      (placeNodes W ctx ac ps).get? i =
        some (emitNode W ctx (fun k => ac k + countAttn (ps.take i) k) n l)
  | [], _, i, _, _ => by simp
  | p :: ps, ac, 0, n, l => by
    intro h
    obtain rfl : p = (n, l) := by simpa using h
    simp only [placeNodes, List.get?_cons_zero, Option.some_inj]
    refine (emitNode_congr W ctx _ _ n l ?_).symm
    simp [countAttn]
  | p :: ps, ac, i + 1, n, l => by
    intro h
    simp only [List.get?_cons_succ] at h
    simp only [placeNodes, List.get?_cons_succ]
    rw [placeNodes_get W ctx ps _ i n l h]
    refine congrArg some (emitNode_congr W ctx _ _ n l ?_)
    rw [show (p :: ps).take (i + 1) = p :: ps.take i from rfl,
      countAttn_cons]
    by_cases hb : bumps p.1 p.2 = true
    · rw [if_pos hb]
      by_cases hk : p.2 = l
      · subst hk
        simp [bump, hb]
        omega
      · have hd : decide (p.2 = l) = false := decide_eq_false hk
        simp [bump, hd, Ne.symm hk]
    · have hb' : bumps p.1 p.2 = false := by
        revert hb; cases bumps p.1 p.2 <;> simp
      rw [if_neg hb]
      simp [hb']

theorem ctxOf_inv (edges : List (String × String)) (H : ℚ) (ctx : Ctx)
    (h : ctxOf edges H = some ctx) :
    ∃ keyed minL maxL,
      keyedNodesOf edges = some keyed ∧
      minLayerOf edges = some minL ∧
      maxLayerOf edges = some maxL ∧
      totalOf (sortDesc keyed) minL maxL ≠ 0 ∧
      ctx = { minL := minL, counts := countsOf (sortDesc keyed),
              heights := heightsOf (sortDesc keyed),
              total := totalOf (sortDesc keyed) minL maxL,
              lh := H / ((totalOf (sortDesc keyed) minL maxL : Nat) : ℚ),
              sorted := sortDesc keyed } := by
  unfold ctxOf at h
  cases hK : keyedNodesOf edges with
  | none => rw [hK] at h; exact absurd h (by simp)
  | some keyed =>
    rw [hK] at h
    cases hMin : minLayerOf edges with
    | none => rw [hMin] at h; exact absurd h (by simp)
    | some minL =>
      rw [hMin] at h
      cases hMax : maxLayerOf edges with
      | none => rw [hMax] at h; exact absurd h (by simp)
      | some maxL =>
        rw [hMax] at h
        dsimp only at h
        by_cases hT : totalOf (sortDesc keyed) minL maxL = 0
        · rw [if_pos hT] at h
          exact absurd h (by simp)
        · rw [if_neg hT] at h
          exact ⟨keyed, minL, maxL, rfl, rfl, rfl, hT,
            (Option.some_inj.1 h).symm⟩

theorem create_elements_inv (edges : List (String × String)) (W H : ℚ)
    (els : List Element) (h : create_elements edges W H = some els) :
    ∃ ctx, ctxOf edges H = some ctx ∧
      els = placeNodes W ctx (fun _ => 0)
        (ctx.sorted.map (fun p => (p.1, p.2.1))) ++ edgeElems edges := by
  unfold create_elements at h
  cases hc : ctxOf edges H with
  | none => rw [hc] at h; exact absurd h (by simp)
  | some ctx =>
    rw [hc] at h
    exact ⟨ctx, rfl, (Option.some_inj.1 h).symm⟩

/-- Every node element of a successful layout run is the `emitNode`
image of the `i`-th sorted node, with the attention counter equal to
the number of attention nodes placed before it. -/
theorem node_elem_struct (edges : List (String × String)) (W H : ℚ)
    (els : List Element) (h : create_elements edges W H = some els)
    (i : Nat) (id t : String) (x y : ℚ)
    (hget : els.get? i = some (Element.node id t x y)) :
    ∃ ctx l, ctxOf edges H = some ctx ∧
      (ctx.sorted.map (fun p => (p.1, p.2.1))).get? i = some (id, l) ∧
      get_layer id = some l ∧
      Element.node id t x y =
        emitNode W ctx (fun k =>
          countAttn ((ctx.sorted.map (fun p => (p.1, p.2.1))).take i) k)
          id l := by
  obtain ⟨ctx, hctx, rfl⟩ := create_elements_inv edges W H els h
  by_cases hi : i <
      (placeNodes W ctx (fun _ => 0)
        (ctx.sorted.map (fun p => (p.1, p.2.1)))).length
  · have hips : i < (ctx.sorted.map (fun p => (p.1, p.2.1))).length := by
      rw [← placeNodes_length W ctx (ctx.sorted.map (fun p => (p.1, p.2.1)))
        (fun _ => 0)]
      exact hi
    obtain ⟨⟨n, l⟩, hpsi⟩ :
        ∃ p, (ctx.sorted.map (fun p => (p.1, p.2.1))).get? i = some p := by
      rw [List.get?_eq_get hips]
      exact ⟨_, rfl⟩
    rw [List.get?_append hi] at hget
    rw [placeNodes_get W ctx _ (fun _ => 0) i n l hpsi] at hget
    have hemit := (Option.some_inj.1 hget).symm
    have hn : id = n := congrArg elemId hemit
    have hlayer : get_layer n = some l := by
      obtain ⟨keyed, minL, maxL, hK, _, _, _, hctxe⟩ :=
        ctxOf_inv edges H ctx hctx
      have hmem : (n, l) ∈ ctx.sorted.map (fun p => (p.1, p.2.1)) :=
        List.get?_mem hpsi
      obtain ⟨trip, htrip, htq⟩ := List.mem_map.1 hmem
      have htrip' : trip ∈ keyed := by
        rw [hctxe] at htrip
        exact (sortDesc_mem keyed trip).1 htrip
      obtain ⟨-, hkeys⟩ := keyedNodes_map_fst (nodesOf edges) keyed hK
      have hsk := hkeys trip htrip'
      have h1 : trip.1 = n := congrArg Prod.fst htq
      have h2 : trip.2.1 = l := congrArg Prod.snd htq
      rw [h1] at hsk
      have hres := sortKey_layer n trip.2 hsk
      rw [h2] at hres
      exact hres
    refine ⟨ctx, l, hctx, ?_, ?_, ?_⟩
    · rw [hn]; exact hpsi
    · rw [hn]; exact hlayer
    · rw [hemit, hn]
      exact emitNode_congr W ctx _ _ n l (by simp)
  · exfalso
    rw [List.get?_append_right (le_of_not_lt hi)] at hget
    have hmem := List.get?_mem hget
    simp only [edgeElems, List.mem_map] at hmem
    obtain ⟨e, -, heq⟩ := hmem
    exact Element.noConfusion heq

theorem pyStartsWith_a_not_m (s : String)
    (h : pyStartsWith s "a" = true) : pyStartsWith s "m" = false := by
  unfold pyStartsWith at h ⊢
  cases hd : s.data with
  | nil => rw [hd] at h; exact absurd h (by decide)
  | cons c cs =>
    rw [hd] at h
    have hc : c = 'a' := by
      have := ( List.isPrefixOf_iff_prefix).1 h
      obtain ⟨t, ht⟩ := this
      have := congrArg (fun l => l.headD ' ') ht
      simpa using this.symm
    simp [List.isPrefixOf, hc]

/-! ### The claims -/

/-- C9: `get_layer("m3-5") = 3`, `get_layer("a2.7") = 2`,
`get_layer("resid_post") = 100`, `get_attention_head("a2.7") = 7`,
`get_attention_head("m3-5") = -1`,
`get_attention_head("resid_post") = -1`. -/
theorem claim9_examples :
    get_layer "m3-5" = some 3 ∧ get_layer "a2.7" = some 2 ∧
    get_layer "resid_post" = some 100 ∧
    get_attention_head "a2.7" = some 7 ∧
    get_attention_head "m3-5" = some (-1) ∧
    get_attention_head "resid_post" = some (-1) := by decide

/-- C3, counterexample: the claim says every identifier not following
the numeric conventions — including `"mlp"` and `"attn"` — gets layer
100 and head -1.  In fact `get_layer("mlp")` executes
`int("lp")` and raises `ValueError` (modelled `none`), and
`get_attention_head("attn")` executes `int("attn")` and raises too. -/
theorem claim3_counterexample :
    get_layer "mlp" = none ∧ get_layer "mlp" ≠ some 100 ∧
    get_attention_head "attn" = none ∧
    get_attention_head "attn" ≠ some (-1) := by decide

/-- C3, amended: identifiers starting with neither `'m'` nor `'a'` get
layer 100 and head -1; an identifier starting with `'m'`/`'a'` whose
numeric part does not parse makes `get_layer` (and, for `'a'`,
`get_attention_head`) raise `ValueError` instead — e.g. `"mlp"` and
`"attn"`; `get_attention_head` still returns -1 for any non-`'a'`
string such as `"mlp"`. -/
theorem claim3_amended :
    (∀ s : String, pyStartsWith s "m" = false → pyStartsWith s "a" = false →
      get_layer s = some 100 ∧ get_attention_head s = some (-1)) ∧
    get_layer "mlp" = none ∧ get_attention_head "attn" = none ∧
    get_attention_head "mlp" = some (-1) := by
  refine ⟨?_, by decide, by decide, by decide⟩
  intro s h1 h2
  constructor
  · simp [get_layer, h1, h2]
  · simp [get_attention_head, h2]

/-- C3, witness: the amended theorem applied at `"resid_post"`. -/
theorem claim3_witness :
    get_layer "resid_post" = some 100 ∧
    get_attention_head "resid_post" = some (-1) :=
  claim3_amended.1 "resid_post" (by decide) (by decide)

/-- C2, counterexample: for edges `[("m0-0","resid_post")]` the code
computes `max_layer = 100`, not the maximum 0 over non-sentinel
layers: the filter `get_layer(node) != float('-inf')` never excludes
anything, so the sentinel participates in `min`/`max`. -/
theorem claim2_counterexample :
    maxLayerOf [("m0-0", "resid_post")] = some 100 ∧
    specMaxFiniteLayer [("m0-0", "resid_post")] = some 0 ∧
    maxLayerOf [("m0-0", "resid_post")] ≠
      specMaxFiniteLayer [("m0-0", "resid_post")] := by decide

/-- C2, amended: `min_layer`/`max_layer` are the min/max over the
layers of *all* nodes, sentinel 100 included: the generator filter
compares an `int` with `float('-inf')`, which is never equal, so
nothing is excluded. -/
theorem claim2_amended (edges : List (String × String)) :
    minLayerOf edges = (layersOf edges).bind pyMin ∧
    maxLayerOf edges = (layersOf edges).bind pyMax := by
  have hfilter : ∀ ls : List Int, ls.filter pyNeqNegInf = ls := fun ls =>
    List.filter_true ls
  unfold minLayerOf maxLayerOf
  cases h : layersOf edges with
  | none => exact ⟨rfl, rfl⟩
  | some ls => simp [hfilter]

/-- C4: a line yields exactly one `(A, B)` pair iff it contains the
pattern `"<A>" -> "<B>"` (with `A`, `B` nonempty and newline-free, as
`.` does not match a newline); the captures are the angle-bracket
contents of such an occurrence; edges come in the order of the
matching lines, without deduplication; no input raises and the empty
result is fine; and parsing is deterministic (in this pure model,
parsing twice is literally the same computation). -/
theorem claim4_parse (lines : List String) :
    gvEdgesOfLines lines = lines.filterMap searchLine ∧
    (∀ line : String, (searchLine line).isSome ↔ containsPat line) ∧
    (∀ line A B, searchLine line = some (A, B) →
      ∃ pre post : String, line = pre ++ patString A B ++ post ∧
        A ≠ "" ∧ B ≠ "") ∧
    gvEdgesOfLines [] = [] ∧
    gvEdgesOfLines lines = gvEdgesOfLines lines := by
  refine ⟨?_, searchLine_isSome_iff, ?_, rfl, rfl⟩
  · induction lines with
    | nil => rfl
    | cons line rest ih =>
      simp only [gvEdgesOfLines, List.filterMap_cons]
      cases searchLine line with
      | none => exact ih
      | some e => rw [ih]
  · intro line A B h
    obtain ⟨pre, post, hline, hA, hB, -, -⟩ := searchLine_some_pat line A B h
    exact ⟨pre, post, hline, hA, hB⟩

/-- C4, witness: the characterisation applied to a single matching
line. -/
theorem claim4_witness :
    gvEdgesOfLines ["\"<a>\" -> \"<b>\""] =
      ["\"<a>\" -> \"<b>\""].filterMap searchLine ∧
    containsPat "\"<a>\" -> \"<b>\"" :=
  ⟨(claim4_parse ["\"<a>\" -> \"<b>\""]).1,
    ((claim4_parse ["\"<a>\" -> \"<b>\""]).2.1 "\"<a>\" -> \"<b>\"").1
      (by decide)⟩

/-- C10, counterexample: for a text holding a lone carriage return the
two input forms disagree: text-mode reading translates the `'\r'` to a
newline (splitting the pattern across two lines, no match), while the
upload branch splits on `'\n'` only and `.` matches the `'\r'`, so the
pattern matches. -/
theorem claim10_counterexample :
    gv_to_edges_upload "\"<a\rb>\" -> \"<c>\"" = [("a\rb", "c")] ∧
    gv_to_edges_path "\"<a\rb>\" -> \"<c>\"" = [] ∧
    gv_to_edges_path "\"<a\rb>\" -> \"<c>\"" ≠
      gv_to_edges_upload "\"<a\rb>\" -> \"<c>\"" := by decide

/-- C10, amended: the two input forms are equivalent for every text in
which each `'\r'` is immediately followed by `'\n'` (in particular for
any `'\r'`-free text): universal-newline translation then only turns
`"\r\n"` into `"\n"`, and a trailing `'\r'` or `'\n'` on a line is
unobservable to the per-line regex search. -/
theorem claim10_amended (text : String) (h : crOk text.data = true) :
    gv_to_edges_path text = gv_to_edges_upload text :=
  gv_path_eq_upload text h

/-- C10, witness: the amended theorem applied to a CRLF text. -/
theorem claim10_witness :
    gv_to_edges_path "\"<a>\" -> \"<b>\"\r\n\"<b>\" -> \"<c>\"" =
      gv_to_edges_upload "\"<a>\" -> \"<b>\"\r\n\"<b>\" -> \"<c>\"" :=
  claim10_amended "\"<a>\" -> \"<b>\"\r\n\"<b>\" -> \"<c>\"" (by decide)

/-- Concrete layout of `[("XH", "m0-0")]` at 1400×800: the sentinel
node `"XH"` contains `'H'`, so its `y` is 20 - 800/4 = -180, not 20. -/
theorem xh_layout :
    create_elements [("XH", "m0-0")] 1400 800 =
      some [Element.node "XH" "default" 980 (-180),
            Element.node "m0-0" "MLP" 70 400,
            Element.edge "XH-m0-0" "XH" "m0-0"] := by
  rw [create_elements_eval [("XH", "m0-0")] 1400 800
      [("XH", (100, -1)), ("m0-0", (0, -1))]
      [("XH", (100, -1)), ("m0-0", (0, -1))]
      0 100 1 (by decide) (by decide) (by decide) (by decide) (by decide)
      (by decide)]
  simp only [placeNodes, emitNode, baseY, bumps, bump, edgeElems, nodeTypeOf,
    List.map, List.append_eq, List.cons_append, List.nil_append,
    show pyStartsWith "XH" "m" = false from by decide,
    show pyStartsWith "XH" "a" = false from by decide,
    show pyStartsWith "m0-0" "m" = true from by decide,
    show pyIn "H" "XH" = true from by decide,
    show pyIn "H" "m0-0" = false from by decide,
    show ("XH" : String) = "resid_post" ↔ False from by decide,
    show heightsBefore 0
      (heightsOf [("XH", (100, -1)), ("m0-0", (0, -1))]) 0 = 0 from by decide]
  norm_num
  decide

/-- Concrete layout of `[("resid_post", "m0-0")]` at 1400×800: the
sentinel node sits at `x = 0.7·1400 = 980`, `y = 20`. -/
theorem resid_layout :
    create_elements [("resid_post", "m0-0")] 1400 800 =
      some [Element.node "resid_post" "Output" 980 20,
            Element.node "m0-0" "MLP" 70 400,
            Element.edge "resid_post-m0-0" "resid_post" "m0-0"] := by
  rw [create_elements_eval [("resid_post", "m0-0")] 1400 800
      [("resid_post", (100, -1)), ("m0-0", (0, -1))]
      [("resid_post", (100, -1)), ("m0-0", (0, -1))]
      0 100 1 (by decide) (by decide) (by decide) (by decide) (by decide)
      (by decide)]
  simp only [placeNodes, emitNode, baseY, bumps, bump, edgeElems, nodeTypeOf,
    List.map, List.append_eq, List.cons_append, List.nil_append,
    show pyStartsWith "resid_post" "m" = false from by decide,
    show pyStartsWith "resid_post" "a" = false from by decide,
    show pyStartsWith "m0-0" "m" = true from by decide,
    show pyIn "H" "resid_post" = false from by decide,
    show pyIn "H" "m0-0" = false from by decide,
    show ("resid_post" : String) = "resid_post" ↔ True from by decide,
    show heightsBefore 0
      (heightsOf [("resid_post", (100, -1)), ("m0-0", (0, -1))]) 0 = 0
      from by decide]
  norm_num
  decide

/-- C6: a node whose identifier contains `"H"` gets a `y`-coordinate
exactly `layer_height / 4` (the vertical unit over 4) below the main
`y` it would receive without the adjustment, which is applied after
the main `y` computation. -/
theorem claim6_H_shift (edges : List (String × String)) (W H : ℚ)
    (els : List Element) (h : create_elements edges W H = some els)
    (i : Nat) (id t : String) (x y : ℚ)
    (hget : els.get? i = some (Element.node id t x y))
    (hH : pyIn "H" id = true) :
    ∃ yb lh, baseYOf edges H id = some yb ∧
      layerHeightOf edges H = some lh ∧ y = yb - lh / 4 := by
  obtain ⟨ctx, l, hctx, hpsi, hlayer, hemit⟩ :=
    node_elem_struct edges W H els h i id t x y hget
  refine ⟨baseY ctx l, ctx.lh, ?_, ?_, ?_⟩
  · unfold baseYOf
    rw [hctx, hlayer]
  · unfold layerHeightOf
    rw [hctx]
    rfl
  · have hy := congrArg elemY hemit
    simp only [emitNode, elemY, hH, if_true] at hy
    exact hy

/-- C6, witness: in the 1400×800 layout of `[("XH", "m0-0")]` the node
`"XH"` (which contains `'H'`) has `y = -180 = 20 - 800/4`. -/
theorem claim6_witness :
    ∃ yb lh, baseYOf [("XH", "m0-0")] 800 "XH" = some yb ∧
      layerHeightOf [("XH", "m0-0")] 800 = some lh ∧
      (-180 : ℚ) = yb - lh / 4 :=
  claim6_H_shift [("XH", "m0-0")] 1400 800 _ xh_layout 0 "XH" "default"
    980 (-180) rfl (by decide)

/-- C7, counterexample: the claim pins every sentinel-layer node at
`y = 20` independent of any per-node adjustment, but the `'H'`
substring shift also applies to sentinel nodes: `"XH"` has layer 100
yet `y = -180 ≠ 20` in the 1400×800 layout of `[("XH", "m0-0")]`. -/
theorem claim7_counterexample :
    create_elements [("XH", "m0-0")] 1400 800 =
      some [Element.node "XH" "default" 980 (-180),
            Element.node "m0-0" "MLP" 70 400,
            Element.edge "XH-m0-0" "XH" "m0-0"] ∧
    get_layer "XH" = some 100 ∧ ((-180 : ℚ) ≠ 20) :=
  ⟨xh_layout, by decide, by norm_num⟩

/-- C7, amended: every sentinel-layer node is placed at `x = 0.7·W`,
and at `y = 20` — unless its identifier contains `"H"`, in which
case the quarter-unit shift of lines 143-144 also applies and
`y = 20 - layer_height/4`. -/
theorem claim7_amended (edges : List (String × String)) (W H : ℚ)
    (els : List Element) (h : create_elements edges W H = some els)
    (i : Nat) (id t : String) (x y : ℚ)
    (hget : els.get? i = some (Element.node id t x y))
    (hsent : get_layer id = some 100) :
    ∃ lh, layerHeightOf edges H = some lh ∧ x = W * (7/10) ∧
      y = (if pyIn "H" id then 20 - lh / 4 else 20) := by
  obtain ⟨ctx, l, hctx, hpsi, hlayer, hemit⟩ :=
    node_elem_struct edges W H els h i id t x y hget
  have hl : l = 100 := Option.some_inj.1 (hlayer.symm.trans hsent)
  subst hl
  refine ⟨ctx.lh, ?_, ?_, ?_⟩
  · unfold layerHeightOf
    rw [hctx]
    rfl
  · have hx := congrArg elemX hemit
    simp only [emitNode, elemX] at hx
    simpa using hx
  · have hy := congrArg elemY hemit
    simp only [emitNode, elemY, baseY] at hy
    simpa using hy

/-- C7, witness: the amended theorem at `[("resid_post", "m0-0")]`,
1400×800: `"resid_post"` sits at `x = 980 = 0.7·1400`, `y = 20`. -/
theorem claim7_witness :
    ∃ lh, layerHeightOf [("resid_post", "m0-0")] 800 = some lh ∧
      (980 : ℚ) = 1400 * (7/10) ∧
      (20 : ℚ) = (if pyIn "H" "resid_post" then 20 - lh / 4 else 20) :=
  claim7_amended [("resid_post", "m0-0")] 1400 800 _ resid_layout 0
    "resid_post" "Output" 980 20 rfl (by decide)

/-- Concrete layout of `[("a100.1", "a100.2"), ("m0-0", "a100.1")]` at
1400×800: both layer-100 attention-typed nodes land on the corner
position `x = 980`. -/
theorem a100_layout :
    create_elements [("a100.1", "a100.2"), ("m0-0", "a100.1")] 1400 800 =
      some [Element.node "a100.2" "Attention" 980 20,
            Element.node "a100.1" "Attention" 980 20,
            Element.node "m0-0" "MLP" 70 400,
            Element.edge "a100.1-a100.2" "a100.1" "a100.2",
            Element.edge "m0-0-a100.1" "m0-0" "a100.1"] := by
  rw [create_elements_eval [("a100.1", "a100.2"), ("m0-0", "a100.1")]
      1400 800
      [("a100.1", (100, 1)), ("a100.2", (100, 2)), ("m0-0", (0, -1))]
      [("a100.2", (100, 2)), ("a100.1", (100, 1)), ("m0-0", (0, -1))]
      0 100 1 (by decide) (by decide) (by decide) (by decide) (by decide)
      (by decide)]
  simp only [placeNodes, emitNode, baseY, bumps, bump, edgeElems, nodeTypeOf,
    List.map, List.append_eq, List.cons_append, List.nil_append,
    show pyStartsWith "a100.1" "m" = false from by decide,
    show pyStartsWith "a100.1" "a" = true from by decide,
    show pyStartsWith "a100.2" "m" = false from by decide,
    show pyStartsWith "a100.2" "a" = true from by decide,
    show pyStartsWith "m0-0" "m" = true from by decide,
    show pyIn "H" "a100.1" = true ↔ False from by decide,
    show pyIn "H" "a100.2" = true ↔ False from by decide,
    show pyIn "H" "m0-0" = true ↔ False from by decide,
    show heightsBefore 0 (heightsOf
      [("a100.2", (100, 2)), ("a100.1", (100, 1)), ("m0-0", (0, -1))])
      0 = 0 from by decide]
  norm_num
  decide

/-- Concrete layout of `[("a2.7", "a2.3")]` at 1400×800: two attention
heads at layer 2, spread as `x = 2450/3` and `x = 1330/3`. -/
theorem a2_layout :
    create_elements [("a2.7", "a2.3")] 1400 800 =
      some [Element.node "a2.7" "Attention" (2450/3) 400,
            Element.node "a2.3" "Attention" (1330/3) 400,
            Element.edge "a2.7-a2.3" "a2.7" "a2.3"] := by
  rw [create_elements_eval [("a2.7", "a2.3")] 1400 800
      [("a2.7", (2, 7)), ("a2.3", (2, 3))]
      [("a2.7", (2, 7)), ("a2.3", (2, 3))]
      2 2 1 (by decide) (by decide) (by decide) (by decide) (by decide)
      (by decide)]
  simp only [placeNodes, emitNode, baseY, bumps, bump, edgeElems, nodeTypeOf,
    List.map, List.append_eq, List.cons_append, List.nil_append,
    show pyStartsWith "a2.7" "m" = false from by decide,
    show pyStartsWith "a2.7" "a" = true from by decide,
    show pyStartsWith "a2.3" "m" = false from by decide,
    show pyStartsWith "a2.3" "a" = true from by decide,
    show pyIn "H" "a2.7" = true ↔ False from by decide,
    show pyIn "H" "a2.3" = true ↔ False from by decide,
    show countsOf [("a2.7", (2, 7)), ("a2.3", (2, 3))] 2 = 2 from by decide,
    show bump (fun _ => 0) 2 2 = 1 from by decide,
    show heightsBefore 2 (heightsOf [("a2.7", (2, 7)), ("a2.3", (2, 3))])
      2 = 0 from by decide]
  norm_num [show bump (fun _ => 0) 2 2 = 1 from by decide]
  decide

/-- C5, counterexample: the claim quantifies over every single layer,
but attention-typed nodes whose derived layer is the sentinel 100
(e.g. `"a100.1"`, `"a100.2"`) are all pinned at the corner
`x = 0.7·W`, so two distinct attention nodes of that layer share the
same `x` and the sequence is not strictly decreasing. -/
theorem claim5_counterexample :
    create_elements [("a100.1", "a100.2"), ("m0-0", "a100.1")] 1400 800 =
      some [Element.node "a100.2" "Attention" 980 20,
            Element.node "a100.1" "Attention" 980 20,
            Element.node "m0-0" "MLP" 70 400,
            Element.edge "a100.1-a100.2" "a100.1" "a100.2",
            Element.edge "m0-0-a100.1" "m0-0" "a100.1"] ∧
    pyStartsWith "a100.1" "a" = true ∧ pyStartsWith "a100.2" "a" = true ∧
    get_layer "a100.1" = get_layer "a100.2" ∧ ¬((980 : ℚ) < 980) :=
  ⟨a100_layout, by decide, by decide, by decide, by norm_num⟩

/-- C5, amended: restricted to a *non-sentinel* layer `l ≠ 100`, the
`x`-coordinates of attention nodes of layer `l` are strictly
decreasing in visitation order, and the `k`-th one placed receives
exactly `x = 0.85·W - k·0.8·W/(layerCount l + 1)` (for positive `W`
no two of them share an `x`).  Nodes of layer 100 are instead pinned
at `x = 0.7·W`. -/
theorem claim5_amended (edges : List (String × String)) (W H : ℚ)
    (hW : 0 < W) (els : List Element)
    (h : create_elements edges W H = some els)
    (i j : Nat) (hij : i < j) (ida idb ta tb : String)
    (xa xb ya yb : ℚ) (l : Int)
    (hi : els.get? i = some (Element.node ida ta xa ya))
    (hj : els.get? j = some (Element.node idb tb xb yb))
    (ha : pyStartsWith ida "a" = true) (hb : pyStartsWith idb "a" = true)
    (hla : get_layer ida = some l) (hlb : get_layer idb = some l)
    (hl : l ≠ 100) :
    ∃ ctx ki kj, ctxOf edges H = some ctx ∧ ki < kj ∧
      xa = W * (17/20) - ((ki : Nat) : ℚ) * (W * (4/5)) /
        ((ctx.counts l + 1 : Nat) : ℚ) ∧
      xb = W * (17/20) - ((kj : Nat) : ℚ) * (W * (4/5)) /
        ((ctx.counts l + 1 : Nat) : ℚ) ∧
      xb < xa := by
  obtain ⟨ctx, li, hctx, hpsi, hlayeri, hemiti⟩ :=
    node_elem_struct edges W H els h i ida ta xa ya hi
  obtain ⟨ctx', lj, hctx', hpsj, hlayerj, hemitj⟩ :=
    node_elem_struct edges W H els h j idb tb xb yb hj
  obtain rfl : ctx = ctx' := Option.some_inj.1 (hctx.symm.trans hctx')
  obtain rfl : l = li := Option.some_inj.1 (hla.symm.trans hlayeri)
  obtain rfl : l = lj := Option.some_inj.1 (hlb.symm.trans hlayerj)
  have hmi : pyStartsWith ida "m" = false := pyStartsWith_a_not_m ida ha
  have hmj : pyStartsWith idb "m" = false := pyStartsWith_a_not_m idb hb
  have hxi := congrArg elemX hemiti
  simp only [emitNode, elemX, hl, hmi, if_false, Bool.false_eq_true,
    ite_false] at hxi
  have hxj := congrArg elemX hemitj
  simp only [emitNode, elemX, hl, hmj, if_false, Bool.false_eq_true,
    ite_false] at hxj
  have hbump : bumps ida l = true := by simp [bumps, hl, hmi]
  have hkij := countAttn_take_lt
    (ctx.sorted.map (fun p => (p.1, p.2.1))) i j l ida hij hpsi hbump
  refine ⟨ctx,
    countAttn ((ctx.sorted.map (fun p => (p.1, p.2.1))).take i) l + 1,
    countAttn ((ctx.sorted.map (fun p => (p.1, p.2.1))).take j) l + 1,
    hctx, by omega, hxi, hxj, ?_⟩
  rw [hxi, hxj]
  have hc : (0 : ℚ) < ((ctx.counts l + 1 : Nat) : ℚ) := by
    exact_mod_cast Nat.succ_pos _
  have hW45 : (0 : ℚ) < W * (4/5) := by positivity
  have hkk :
      ((countAttn ((ctx.sorted.map (fun p => (p.1, p.2.1))).take i) l
        + 1 : Nat) : ℚ) <
      ((countAttn ((ctx.sorted.map (fun p => (p.1, p.2.1))).take j) l
        + 1 : Nat) : ℚ) := by
    exact_mod_cast Nat.succ_lt_succ hkij
  have h1 := mul_lt_mul_of_pos_right hkk hW45
  exact sub_lt_sub_left ((div_lt_div_right hc).2 h1) _

/-- C5, witness: in the 1400×800 layout of `[("a2.7", "a2.3")]` the
two attention heads of layer 2 receive strictly decreasing `x`. -/
theorem claim5_witness :
    create_elements [("a2.7", "a2.3")] 1400 800 =
      some [Element.node "a2.7" "Attention" (2450/3) 400,
            Element.node "a2.3" "Attention" (1330/3) 400,
            Element.edge "a2.7-a2.3" "a2.7" "a2.3"] ∧
    (1330/3 : ℚ) < 2450/3 := by
  refine ⟨a2_layout, ?_⟩
  obtain ⟨ctx, ki, kj, hctx, hkij, hxa, hxb, hlt⟩ :=
    claim5_amended [("a2.7", "a2.3")] 1400 800 (by norm_num) _ a2_layout
      0 1 (by norm_num) "a2.7" "a2.3" "Attention" "Attention"
      (2450/3) (1330/3) 400 400 2 rfl rfl (by decide) (by decide)
      (by decide) (by decide) (by decide)
  exact hlt

/-- C8: for the edge list `[("a0.1","m0-0"), ("m0-0","resid_post")]`
the node set is exactly the three distinct endpoints; the element list
is exactly 3 node elements (in descending key order) followed by
exactly 2 edge elements with ids `"a0.1-m0-0"` and
`"m0-0-resid_post"`, for every drawing area. -/
theorem claim8_example_layout (W H : ℚ) :
    create_elements [("a0.1", "m0-0"), ("m0-0", "resid_post")] W H =
      some [Element.node "resid_post" "Output" (W * (7/10)) 20,
            Element.node "a0.1" "Attention"
              (W * (17/20) - (W * (4/5)) / 3) (H / 2),
            Element.node "m0-0" "MLP" (W * (1/20)) (H / 2),
            Element.edge "a0.1-m0-0" "a0.1" "m0-0",
            Element.edge "m0-0-resid_post" "m0-0" "resid_post"] := by
  rw [create_elements_eval [("a0.1", "m0-0"), ("m0-0", "resid_post")] W H
      [("a0.1", (0, 1)), ("m0-0", (0, -1)), ("resid_post", (100, -1))]
      [("resid_post", (100, -1)), ("a0.1", (0, 1)), ("m0-0", (0, -1))]
      0 100 1 (by decide) (by decide) (by decide) (by decide) (by decide)
      (by decide)]
  simp only [placeNodes, emitNode, baseY, bumps, bump, edgeElems, nodeTypeOf,
    List.map, List.append_eq, List.cons_append, List.nil_append,
    show pyStartsWith "resid_post" "m" = false from by decide,
    show pyStartsWith "resid_post" "a" = false from by decide,
    show pyStartsWith "a0.1" "m" = false from by decide,
    show pyStartsWith "a0.1" "a" = true from by decide,
    show pyStartsWith "m0-0" "m" = true from by decide,
    show pyIn "H" "resid_post" = true ↔ False from by decide,
    show pyIn "H" "a0.1" = true ↔ False from by decide,
    show pyIn "H" "m0-0" = true ↔ False from by decide,
    show ("resid_post" : String) = "resid_post" ↔ True from by decide,
    show countsOf [("resid_post", (100, -1)), ("a0.1", (0, 1)),
      ("m0-0", (0, -1))] 0 = 2 from by decide,
    show heightsBefore 0 (heightsOf [("resid_post", (100, -1)),
      ("a0.1", (0, 1)), ("m0-0", (0, -1))]) 0 = 0 from by decide]
  norm_num
  constructor
  · ring
  · decide

/-- C1, counterexample: `create_elements` on the empty edge list does
not return an empty element list — `min()` over the empty node set
raises `ValueError` — and an all-sentinel node set (here
`{resid_post, out}`) divides by `total_layers = 0`. -/
theorem claim1_counterexample :
    create_elements [] 1400 800 = none ∧
    create_elements [] 1400 800 ≠ some [] ∧
    create_elements [("resid_post", "out")] 1400 800 = none := by decide

/-- C1, amended: `create_elements` raises on an empty node set
(`min`/`max` of an empty sequence) and whenever every node has the
sentinel layer 100 (`total_layers = 0`, division by zero); it returns
an element list whenever every sort key parses and at least one node
has a non-sentinel layer. -/
theorem claim1_amended (edges : List (String × String)) (W H : ℚ) :
    (nodesOf edges = [] → create_elements edges W H = none) ∧
    ((∀ n ∈ nodesOf edges, get_layer n = some 100) →
      create_elements edges W H = none) ∧
    ((∀ n ∈ nodesOf edges, (sortKey n).isSome) →
      (∃ n ∈ nodesOf edges, ∃ l, get_layer n = some l ∧ l ≠ 100) →
      (create_elements edges W H).isSome) := by
  have hfilter : ∀ ls : List Int, ls.filter pyNeqNegInf = ls := fun ls =>
    List.filter_true ls
  refine ⟨?_, ?_, ?_⟩
  · intro h0
    have hK : keyedNodesOf edges = some [] := by
      unfold keyedNodesOf
      rw [h0]
      rfl
    have hMin : minLayerOf edges = none := by
      unfold minLayerOf layersOf
      rw [hK]
      rfl
    unfold create_elements ctxOf
    rw [hK, hMin]
  · intro hall
    cases hK : keyedNodesOf edges with
    | none =>
      unfold create_elements ctxOf
      rw [hK]
    | some keyed =>
      obtain ⟨hfst, hkeys⟩ := keyedNodes_map_fst (nodesOf edges) keyed hK
      have hlay : ∀ p ∈ keyed, p.2.1 = 100 := by
        intro p hp
        have h1 := hkeys p hp
        have h2 := sortKey_layer p.1 p.2 h1
        have hpmem : p.1 ∈ nodesOf edges := by
          rw [← hfst]
          exact List.mem_map_of_mem Prod.fst hp
        have h3 := hall p.1 hpmem
        exact Option.some_inj.1 (h2.symm.trans h3)
      have hlayers : layersOf edges = some (keyed.map (fun p => p.2.1)) := by
        unfold layersOf
        rw [hK]
        rfl
      cases hMin : minLayerOf edges with
      | none =>
        unfold create_elements ctxOf
        rw [hK, hMin]
      | some minL =>
        cases hMax : maxLayerOf edges with
        | none =>
          unfold create_elements ctxOf
          rw [hK, hMin, hMax]
        | some maxL =>
          have hminL : minL = 100 := by
            have hm : pyMin (keyed.map (fun p => p.2.1)) = some minL := by
              unfold minLayerOf at hMin
              rw [hlayers] at hMin
              simpa [hfilter] using hMin
            obtain ⟨p, hp, hpl⟩ := List.mem_map.1 (pyMin_mem _ minL hm)
            rw [← hpl]
            exact hlay p hp
          have hmaxL : maxL = 100 := by
            have hm : pyMax (keyed.map (fun p => p.2.1)) = some maxL := by
              unfold maxLayerOf at hMax
              rw [hlayers] at hMax
              simpa [hfilter] using hMax
            obtain ⟨p, hp, hpl⟩ := List.mem_map.1 (pyMax_mem _ maxL hm)
            rw [← hpl]
            exact hlay p hp
          subst hminL
          subst hmaxL
          have htot : totalOf (sortDesc keyed) 100 100 = 0 := by
            have h1 : totalOf (sortDesc keyed) 100 100 =
                heightsOf (sortDesc keyed) 100 := by
              unfold totalOf
              rw [show ((100 : Int) + 1 - 100).toNat = 1 from rfl,
                show List.range 1 = [0] from rfl]
              simp
            rw [h1]
            simp [heightsOf, countsOf]
          unfold create_elements ctxOf
          rw [hK, hMin, hMax]
          dsimp only
          rw [if_pos htot]
  · intro hkeysome hex
    obtain ⟨n0, hn0mem, l0, hl0, hl0ne⟩ := hex
    obtain ⟨keyed, hK⟩ := Option.isSome_iff_exists.1
      (mapM_sortKey_isSome (nodesOf edges) hkeysome)
    obtain ⟨hfst, hkeyrel⟩ := keyedNodes_map_fst (nodesOf edges) keyed hK
    obtain ⟨trip, htrip, htrip1⟩ := List.mem_map.1
      (show n0 ∈ keyed.map Prod.fst by rw [hfst]; exact hn0mem)
    have hsk := hkeyrel trip htrip
    have hlay' := sortKey_layer trip.1 trip.2 hsk
    have htl : trip.2.1 = l0 := by
      rw [htrip1] at hlay'
      exact Option.some_inj.1 (hlay'.symm.trans hl0)
    have hKk : keyedNodesOf edges = some keyed := hK
    have hlayers : layersOf edges = some (keyed.map (fun p => p.2.1)) := by
      unfold layersOf
      rw [hKk]
      rfl
    have hmem_l0 : l0 ∈ keyed.map (fun p => p.2.1) := by
      rw [← htl]
      exact List.mem_map_of_mem (fun p => p.2.1) htrip
    have hne : keyed.map (fun p => p.2.1) ≠ [] := by
      intro hcon
      rw [hcon] at hmem_l0
      exact List.not_mem_nil _ hmem_l0
    obtain ⟨minL, hMin'⟩ := Option.isSome_iff_exists.1 (pyMin_isSome _ hne)
    obtain ⟨maxL, hMax'⟩ := Option.isSome_iff_exists.1 (pyMax_isSome _ hne)
    have hMin : minLayerOf edges = some minL := by
      unfold minLayerOf
      rw [hlayers]
      simpa [hfilter] using hMin'
    have hMax : maxLayerOf edges = some maxL := by
      unfold maxLayerOf
      rw [hlayers]
      simpa [hfilter] using hMax'
    have hminle : minL ≤ l0 := pyMin_le _ minL hMin' l0 hmem_l0
    have hmaxge : l0 ≤ maxL := pyMax_ge _ maxL hMax' l0 hmem_l0
    have hcount : countsOf (sortDesc keyed) l0 ≠ 0 := by
      have htrip_s : trip ∈ sortDesc keyed := (sortDesc_mem keyed trip).2 htrip
      unfold countsOf
      rw [if_neg hl0ne]
      intro hlen
      have hmemf : trip ∈ (sortDesc keyed).filter
          (fun p => decide (p.2.1 = l0)) :=
        List.mem_filter.2 ⟨htrip_s, by simp [htl]⟩
      rw [List.length_eq_zero.1 hlen] at hmemf
      exact List.not_mem_nil _ hmemf
    have hheights : heightsOf (sortDesc keyed) l0 = 1 := by
      simp [heightsOf, hcount]
    have htot : totalOf (sortDesc keyed) minL maxL ≠ 0 := by
      have hle := heightsOf_le_totalOf (sortDesc keyed) minL maxL l0
        hminle hmaxge
      omega
    unfold create_elements ctxOf
    rw [hKk, hMin, hMax]
    dsimp only
    rw [if_neg htot]
    rfl

/-- C1, witness: the amended theorem applied to the empty edge list
(raises) and to `[("m0-0", "resid_post")]` (succeeds). -/
theorem claim1_witness :
    create_elements [] 1400 800 = none ∧
    (create_elements [("m0-0", "resid_post")] 1400 800).isSome = true :=
  ⟨(claim1_amended [] 1400 800).1 (by decide),
   (claim1_amended [("m0-0", "resid_post")] 1400 800).2.2
     (by decide) ⟨"m0-0", by decide, 0, by decide, by decide⟩⟩

end KCVis
